import Mathlib

/-!
Shallow embedding of `facecube.py` (FaceCube: Kinect depth capture to PLY
point cloud).  Depth frames are 2-D grids of integer raw sensor readings,
modelled as lists of rows of integers; real arithmetic on calibration
formulas is modelled exactly over `ℚ`.  numpy reductions (`amin`/`amax`,
`argwhere`) are modelled over the flattened pixel list; the scipy
morphology and labeling primitives the source calls (external library
code, not part of this repository) are modelled from their documented
semantics and from the spec, as noted on each definition.
-/

set_option maxHeartbeats 1600000

abbrev Frame := List (List ℤ)

abbrev Pos := ℕ × ℕ

/-- All pixels of a frame in row-major order (numpy's flat view). -/
def flatF (f : Frame) : List ℤ := f.flatten

/-- Pixel access; out-of-range indices read as `0` (background). -/
def pixel (f : Frame) (p : Pos) : ℤ := (f.getD p.1 []).getD p.2 0

/-- Number of rows, `array.shape[0]`. -/
def rowsF (f : Frame) : ℕ := f.length

/-- Number of columns, `array.shape[1]` (length of the first row). -/
def colsF (f : Frame) : ℕ := (f.getD 0 []).length

/-- `numpy.amax` over a nonempty frame (junk value `0` on an empty one;
the one caller guards emptiness separately, mirroring numpy's
`ValueError` on zero-size reductions). -/
def listMax : List ℤ → ℤ
  | [] => 0
  | a :: l => l.foldl max a

/-- `numpy.amin` over a nonempty list, `0` on an empty one. -/
def listMin : List ℤ → ℤ
  | [] => 0
  | a :: l => l.foldl min a

def listMaxN (l : List ℕ) : ℕ := l.foldl max 0

def amax (f : Frame) : ℤ := listMax (flatF f)

def amin (f : Frame) : ℤ := listMin (flatF f)

/-- Calibration denominator `-0.00307 * raw + 3.33` (facecube.py lines 53,
85, 113, 163). -/
def denQ (raw : ℤ) : ℚ := -(307/100000) * raw + 333/100

/-- Raw-to-millimeters calibration model `1000.0/(-0.00307*raw + 3.33)`
(facecube.py lines 53, 85, 113). -/
def distance_mm (raw : ℤ) : ℚ := 1000 / denQ raw

/-- Build a frame with `n` rows, row `i` of length `len i`, entry `g i j`. -/
def gridOf (n : ℕ) (len : ℕ → ℕ) (g : ℕ → ℕ → ℤ) : Frame :=
  (List.range n).map (fun i => (List.range (len i)).map (fun j => g i j))

/-- Near-field rewrap `self.depth + 2047 * (self.depth <= 500)`
(facecube.py line 161). -/
def rewrapV (v : ℤ) : ℤ := v + 2047 * (if v ≤ 500 then 1 else 0)

def rewrap (d : Frame) : Frame := d.map (List.map rewrapV)

/-- `closest = numpy.amin(self.depth)` after the rewrap (line 162). -/
def closestOf (d : Frame) : ℤ := amin (rewrap d)

/-- The cutoff raw value computed by `generate_threshold` (lines 163-164):
`closest_cm = 100.0/(-0.00307*closest + 3.33)` and
`farthest = (100/(closest_cm + face_depth) - 3.33) / -0.00307`. -/
def farthestRaw (closest : ℤ) (w : ℚ) : ℚ :=
  (100 / (100 / denQ closest + w) - 333/100) / (-(307/100000))

/-- Multiplication by the boolean mask `v <= far`. -/
def maskLe (far : ℚ) (v : ℤ) : ℤ := v * (if (v : ℚ) ≤ far then 1 else 0)

/-- The threshold frame produced by one `FaceCube.generate_threshold` call
on stored depth `d` with depth window `w` (lines 158-165):
`self.threshold = self.depth * (self.depth <= farthest)`. -/
def genThreshold (d : Frame) (w : ℚ) : Frame :=
  (rewrap d).map (List.map (maskLe (farthestRaw (closestOf d) w)))

/-- Modelled from the spec: inverse of the calibration model,
`raw = (1000/distance - 3.33) / -0.00307`, used to state the spec's version
of the cutoff (spec section 4.3 steps 3-4). -/
def distInv (dist : ℚ) : ℚ := (1000 / dist - 333/100) / (-(307/100000))

/-- Modelled from the spec: the thresholding pipeline exactly as the claim
words it — rewrap, take the minimum, cutoff distance
`distance_mm(closest) + depthWindow` in millimeters, invert through the
calibration model, zero pixels whose raw exceeds the cutoff. -/
def specThreshold (d : Frame) (w : ℚ) : Frame :=
  (rewrap d).map (List.map (maskLe (distInv (distance_mm (closestOf d) + w))))

/-- 4-neighbourhood adjacency of grid positions. -/
abbrev adjacent (p q : Pos) : Prop :=
  (p.1 = q.1 ∧ (p.2 + 1 = q.2 ∨ q.2 + 1 = p.2)) ∨
  (p.2 = q.2 ∧ (p.1 + 1 = q.1 ∨ q.1 + 1 = p.1))

/-- One step of breadth-first closure inside the cell set `C`. -/
def stepR (C S : Finset Pos) : Finset Pos :=
  S ∪ C.filter (fun q => ∃ a ∈ S, adjacent a q)

/-- All cells of `C` reachable from `S0 ∩ C` through 4-adjacent cells of
`C`; iterating `C.card` times reaches the fixed point. -/
def reachF (C S0 : Finset Pos) : Finset Pos :=
  (stepR C)^[C.card] (S0 ∩ C)

def maxRow (f : Frame) : ℕ := listMaxN (f.map List.length)

/-- The nonzero (foreground) positions of a frame. -/
def cells (f : Frame) : Finset Pos :=
  (Finset.range f.length ×ˢ Finset.range (maxRow f)).filter
    (fun p => pixel f p ≠ 0)

/-- Modelled from the spec: `scipy.ndimage.measurements.label` (external
library, facecube.py lines 170, 182) assigns equal nonzero labels exactly
to nonzero pixels in the same 4-connected component; `reach f p` is the
component of `p`, so `q ∈ reach f p` models `segments[q] == segments[p]`
with `segments[p] != 0`. -/
def reach (f : Frame) (p : Pos) : Finset Pos := reachF (cells f) {p}

/-- Mathematical connectivity: `p` and `q` are nonzero and joined by a
chain of 4-adjacent nonzero pixels. -/
def Conn (f : Frame) (p q : Pos) : Prop :=
  pixel f p ≠ 0 ∧ pixel f q ≠ 0 ∧
    Relation.ReflTransGen
      (fun a b => adjacent a b ∧ pixel f a ≠ 0 ∧ pixel f b ≠ 0) p q

def gridAll (r c : ℕ) : Finset Pos := Finset.range r ×ˢ Finset.range c

def complCells (m : Finset Pos) (r c : ℕ) : Finset Pos :=
  (gridAll r c).filter (fun p => p ∉ m)

def borderCompl (m : Finset Pos) (r c : ℕ) : Finset Pos :=
  (complCells m r c).filter
    (fun p => p.1 = 0 ∨ p.1 + 1 = r ∨ p.2 = 0 ∨ p.2 + 1 = c)

/-- Modelled from the spec: `scipy.ndimage.morphology.binary_fill_holes`
(external library, facecube.py lines 104, 125) — background cells not
4-connected to the border background are filled into the mask. -/
def filledMask (m : Finset Pos) (r c : ℕ) : Finset Pos :=
  m ∪ ((complCells m r c) \ reachF (complCells m r c) (borderCompl m r c))

/-- The mask used by `outline_points`/`back_points`: `array != 0`,
hole-filled unless `leave_holes` (facecube.py lines 102-104, 123-125). -/
def theMask (f : Frame) (lh : Bool) : Finset Pos :=
  if lh then cells f else filledMask (cells f) (rowsF f) (colsF f)

/-- Modelled from the spec: `scipy.ndimage.morphology.binary_erosion` with
the default cross structuring element and `border_value=0` (external
library, facecube.py line 105): a cell survives iff its four neighbours
are in the mask (cells outside the grid never are). -/
def erodeM (m : Finset Pos) : Finset Pos :=
  m.filter (fun p =>
    ((p.1 + 1, p.2) ∈ m) ∧ ((p.1, p.2 + 1) ∈ m) ∧
    (0 < p.1 ∧ (p.1 - 1, p.2) ∈ m) ∧ (0 < p.2 ∧ (p.1, p.2 - 1) ∈ m))

/-- `mask - binary_erosion(mask)` (facecube.py line 105). -/
def boundaryM (m : Finset Pos) : Finset Pos := m \ erodeM m

/-- `PlyWriter.to_world` (facecube.py lines 44-47):
`x = float(point[0] - dims[0]/2) * scale` with Python 2 integer division. -/
def to_world (dims : ℕ × ℕ) (scale : ℚ) (p : ℤ × ℤ) : ℚ × ℚ :=
  (((p.1 : ℚ) - ((dims.1 / 2 : ℕ) : ℚ)) * scale,
   ((p.2 : ℚ) - ((dims.2 / 2 : ℕ) : ℚ)) * scale)

/-- The stepped raw values of the outline wall loop (facecube.py lines
110-116): `z` runs from `v + 1` while `z < depth`. -/
def wallRaws (v depth : ℤ) : List ℤ :=
  (List.range (depth - v - 1).toNat).map (fun (k : ℕ) => v + 1 + (k : ℤ))

/-- `PlyWriter.mesh_points` (facecube.py lines 81-95): for every pixel
whose converted depth is truthy, emit `(to_world(i,j), distance_mm v)`. -/
def mesh_points (dims : ℕ × ℕ) (scale : ℚ) (f : Frame) : List (ℚ × ℚ × ℚ) :=
  (List.range dims.1).flatMap (fun i => (List.range dims.2).flatMap (fun j =>
    let z : ℚ := if pixel f (i, j) ≠ 0 then distance_mm (pixel f (i, j)) else 0
    if z ≠ 0 then
      [((to_world dims scale ((i : ℤ), (j : ℤ))).1,
        (to_world dims scale ((i : ℤ), (j : ℤ))).2, z)]
    else []))

/-- `PlyWriter.outline_points` (facecube.py lines 97-118): for every
boundary pixel with nonzero value `v`, a wall of points at raw depths
`v+1, ..., depth-1`. -/
def outline_points (dims : ℕ × ℕ) (scale : ℚ) (f : Frame) (depth : ℤ)
    (lh : Bool) : List (ℚ × ℚ × ℚ) :=
  (List.range dims.1).flatMap (fun i => (List.range dims.2).flatMap (fun j =>
    let v : ℤ := if (i, j) ∈ boundaryM (theMask f lh) then pixel f (i, j) else 0
    if v ≠ 0 then
      (wallRaws v depth).map (fun z =>
        ((to_world dims scale ((i : ℤ), (j : ℤ))).1,
         (to_world dims scale ((i : ℤ), (j : ℤ))).2, distance_mm z))
    else []))

/-- The synthetic frame `depth * mask` of `PlyWriter.back_points`
(facecube.py line 126). -/
def backFrame (dims : ℕ × ℕ) (m : Finset Pos) (depth : ℤ) : Frame :=
  gridOf dims.1 (fun _ => dims.2) (fun i j => if (i, j) ∈ m then depth else 0)

/-- `PlyWriter.back_points` (facecube.py lines 120-128). -/
def back_points (dims : ℕ × ℕ) (scale : ℚ) (f : Frame) (depth : ℤ)
    (lh : Bool) : List (ℚ × ℚ × ℚ) :=
  mesh_points dims scale (backFrame dims (theMask f lh) depth)

/-- `PlyWriter.write_points` (facecube.py lines 139-142): each point is
serialized as `(x - center_x, y - center_y, farthest - z)`. -/
def write_points (pts : List (ℚ × ℚ × ℚ)) (farthest : ℚ) (center : ℚ × ℚ) :
    List (ℚ × ℚ × ℚ) :=
  pts.map (fun t => (t.1 - center.1, t.2.1 - center.2, farthest - t.2.2))

/-- The mutable fields of a `PlyWriter` object that `save` assigns
(`z_p`, `scale`, `dims`). -/
structure PlyState where
  z_p : ℚ
  scale : ℚ
  dims : ℕ × ℕ
  deriving DecidableEq

/-- Failure modes of `save`.  `emptyReduction` models the `ValueError`
numpy raises from a min/max reduction over a zero-size array (the only
failure the code can actually produce).  Modelled from the spec:
`emptyPointCloud` is the spec's `EmptyPointCloud` error kind (spec
section 7); no code path produces it. -/
inductive PlyError where
  | emptyReduction : PlyError
  | emptyPointCloud : PlyError
  deriving DecidableEq

/-- What a successful `save` produces: the writer state it assigned, the
vertex count of the header, the serialized points, and the returned
`size_mm`. -/
structure SaveResult where
  state : PlyState
  header_count : ℕ
  written : List (ℚ × ℚ × ℚ)
  size_mm : ℚ × ℚ
  deriving DecidableEq

/-- `farthest_mm` of a save call (facecube.py line 53). -/
def saveZ (a : Frame) : ℚ := distance_mm (amax a)

/-- `self.scale = float(self.z_p + minDistance) * scaleFactor` with
`minDistance = -100`, `scaleFactor = 0.0021` (lines 56-58). -/
def saveScale (a : Frame) : ℚ := (saveZ a + (-100)) * (21 / 10000)

def saveDims (a : Frame) : ℕ × ℕ := (rowsF a, colsF a)

/-- `numpy.argwhere(array)` in row-major order (line 60). -/
def nonzeroIdx (a : Frame) : List Pos :=
  (List.range (rowsF a)).flatMap (fun i =>
    (List.range (colsF a)).flatMap (fun j =>
      if pixel a (i, j) ≠ 0 then [(i, j)] else []))

/-- The merged point list of one save call (lines 67-69):
outline points, then back-plane points, then mesh points. -/
def savePts (a : Frame) (lh : Bool) : List (ℚ × ℚ × ℚ) :=
  outline_points (saveDims a) (saveScale a) a (amax a) lh ++
  back_points (saveDims a) (saveScale a) a (amax a) lh ++
  mesh_points (saveDims a) (saveScale a) a

/-- `min_point = a.min(0)` over the nonzero indices (facecube.py line 61). -/
def saveMinP (a : Frame) : ℤ × ℤ :=
  (listMin ((nonzeroIdx a).map (fun p => (p.1 : ℤ))),
   listMin ((nonzeroIdx a).map (fun p => (p.2 : ℤ))))

/-- `max_point = a.max(0) + 1` over the nonzero indices (line 61). -/
def saveMaxP (a : Frame) : ℤ × ℤ :=
  (listMax ((nonzeroIdx a).map (fun p => (p.1 : ℤ))) + 1,
   listMax ((nonzeroIdx a).map (fun p => (p.2 : ℤ))) + 1)

/-- `center_mm` of a save call (line 64). -/
def saveCenter (a : Frame) : ℚ × ℚ :=
  (((to_world (saveDims a) (saveScale a) (saveMinP a)).1 +
      (to_world (saveDims a) (saveScale a) (saveMaxP a)).1) / 2,
   ((to_world (saveDims a) (saveScale a) (saveMinP a)).2 +
      (to_world (saveDims a) (saveScale a) (saveMaxP a)).2) / 2)

/-- `size_mm` of a save call (line 65). -/
def saveSize (a : Frame) : ℚ × ℚ :=
  ((to_world (saveDims a) (saveScale a) (saveMaxP a)).1 -
     (to_world (saveDims a) (saveScale a) (saveMinP a)).1,
   (to_world (saveDims a) (saveScale a) (saveMaxP a)).2 -
     (to_world (saveDims a) (saveScale a) (saveMinP a)).2)

/-- `PlyWriter.save` (facecube.py lines 49-78).  The incoming writer state
is overwritten before use; `.error .emptyReduction` marks the two places
numpy raises `ValueError` on the way (zero-size `amax`, and `a.min(0)` of
an empty `argwhere` during the bounding-box computation); on error no file
content exists. -/
def save (st : PlyState) (a : Frame) (lh : Bool) : Except PlyError SaveResult :=
  if flatF a = [] then .error .emptyReduction
  else if nonzeroIdx a = [] then .error .emptyReduction
  else
    .ok { state := ⟨saveZ a, saveScale a, saveDims a⟩,
          header_count := (savePts a lh).length,
          written := write_points (savePts a lh) (saveZ a) (saveCenter a),
          size_mm := saveSize a }

/-- The session state held by a `FaceCube` object (facecube.py lines
145-151): current depth frame, threshold, segmented frame and selected
coordinate. -/
structure FC where
  depth : Frame
  threshold : Option Frame
  segmented : Option Frame
  selected : Option Pos
  deriving DecidableEq

/-- `FaceCube.generate_threshold` (lines 158-165): rewraps the stored
depth in place and computes the threshold frame. -/
def FC.generate_threshold (st : FC) (w : ℚ) : FC :=
  { st with depth := rewrap st.depth, threshold := some (genThreshold st.depth w) }

/-- `FaceCube.select_segment` (lines 167-177): store the picked point if
its fresh label is nonzero, else clear selection and segment. -/
def FC.select_segment (st : FC) (point : Pos) : FC :=
  let f := st.threshold.getD []
  if pixel f point ≠ 0 then { st with selected := some point }
  else { st with selected := none, segmented := none }

/-- `self.threshold * (segments == selected)` for a selected pixel with
nonzero label (line 185). -/
def maskComponent (f : Frame) (p : Pos) : Frame :=
  gridOf f.length (fun i => (f.getD i []).length)
    (fun i j => pixel f (i, j) * (if (i, j) ∈ reach f p then 1 else 0))

/-- `FaceCube.segment` (lines 179-187). -/
def FC.segment (st : FC) : FC :=
  match st.selected with
  | none => st
  | some p =>
    let f := st.threshold.getD []
    if pixel f p ≠ 0 then { st with segmented := some (maskComponent f p) }
    else { st with segmented := none }

def nbrIdx (w i n : ℕ) : List ℕ :=
  (List.range n).filter (fun a => i ≤ a + w / 2 ∧ a ≤ i + w / 2)

def nbhdVals (s : Frame) (w i j : ℕ) : List ℤ :=
  (nbrIdx w i s.length).flatMap (fun a =>
    (nbrIdx w j ((s.getD i []).length)).map (fun b => pixel s (a, b)))

/-- Modelled from the spec: grayscale dilation with a square `w × w`
window (`scipy.ndimage` is external; spec section 4.5), clipped at the
grid edge — the maximum of the neighbourhood values. -/
def dilateF (s : Frame) (w : ℕ) : Frame :=
  gridOf s.length (fun i => (s.getD i []).length)
    (fun i j => listMax (nbhdVals s w i j))

/-- Modelled from the spec: grayscale erosion, dual of `dilateF`. -/
def erodeF (s : Frame) (w : ℕ) : Frame :=
  gridOf s.length (fun i => (s.getD i []).length)
    (fun i j => listMin (nbhdVals s w i j))

/-- Modelled from the spec: `scipy.ndimage.morphology.grey_closing` with
`size=(w, w)` (external library, facecube.py line 193) — erosion of the
dilation. -/
def greyClosing (s : Frame) (w : ℕ) : Frame := erodeF (dilateF s w) w

/-- `FaceCube.hole_fill` (lines 189-193): grey-close the segmented frame
if there is one, else do nothing. -/
def FC.hole_fill (st : FC) (window : ℕ) : FC :=
  match st.segmented with
  | some s => { st with segmented := some (greyClosing s window) }
  | none => st

/-- The hole-filling step of the driving cycle (facecube.py lines
315-316): `if hole_filling: facecube.hole_fill(hole_filling)`.  The
window count is a natural number because the loop clamps it with
`max(0, hole_filling - 1)` (line 269). -/
def holeFillCycle (window : ℕ) (st : FC) : FC :=
  if window ≠ 0 then st.hole_fill window else st

/-- `FaceCube.get_array` (lines 195-199). -/
def FC.get_array (st : FC) : Option Frame :=
  match st.segmented with
  | some s => some s
  | none => st.threshold

/-- Every pixel of the frame is nonnegative (raw sensor readings). -/
def nonnegF (f : Frame) : Prop := ∀ v ∈ flatF f, 0 ≤ v

/-- Every nonzero pixel is strictly above the near-field bound 500. -/
def goodFrame (f : Frame) : Prop := ∀ v ∈ flatF f, v ≠ 0 → 500 < v

def goodOpt : Option Frame → Prop
  | some f => goodFrame f
  | none => True

/-- The session invariant: threshold and segmented frames (when present)
have all nonzero pixels above 500. -/
def goodFC (st : FC) : Prop := goodOpt st.threshold ∧ goodOpt st.segmented

instance nonnegF.dec (f : Frame) : Decidable (nonnegF f) :=
  inferInstanceAs (Decidable (∀ v ∈ flatF f, 0 ≤ v))

instance goodFrame.dec (f : Frame) : Decidable (goodFrame f) :=
  inferInstanceAs (Decidable (∀ v ∈ flatF f, v ≠ 0 → 500 < v))

instance goodOpt.dec : (o : Option Frame) → Decidable (goodOpt o)
  | some f => inferInstanceAs (Decidable (goodFrame f))
  | none => .isTrue trivial

instance goodFC.dec (st : FC) : Decidable (goodFC st) :=
  inferInstanceAs (Decidable (_ ∧ _))

lemma le_foldl_max {α : Type} [LinearOrder α] (l : List α) (b : α) :
    b ≤ l.foldl max b := by
  induction l generalizing b with
  | nil => exact le_refl b
  | cons a t ih => exact le_trans (le_max_left b a) (ih (max b a))

lemma mem_le_foldl_max {α : Type} [LinearOrder α] (l : List α) (b x : α)
    (hx : x ∈ l) : x ≤ l.foldl max b := by
  induction l generalizing b with
  | nil => cases hx
  | cons a t ih =>
    rcases List.mem_cons.mp hx with h | h
    · subst h
      exact le_trans (le_max_right b x) (le_foldl_max t (max b x))
    · exact ih (max b a) h

lemma foldl_max_cases {α : Type} [LinearOrder α] (l : List α) (b : α) :
    l.foldl max b = b ∨ l.foldl max b ∈ l := by
  induction l generalizing b with
  | nil => exact Or.inl rfl
  | cons a t ih =>
    rcases ih (max b a) with h | h
    · rcases max_choice b a with hm | hm
      · exact Or.inl (by rw [List.foldl_cons, h, hm])
      · exact Or.inr (by rw [List.foldl_cons, h, hm]; exact List.mem_cons_self a t)
    · exact Or.inr (List.mem_cons_of_mem a h)

lemma le_listMax (l : List ℤ) (x : ℤ) (hx : x ∈ l) : x ≤ listMax l := by
  cases l with
  | nil => cases hx
  | cons a t =>
    rcases List.mem_cons.mp hx with h | h
    · subst h; exact le_foldl_max t x
    · exact mem_le_foldl_max t a x h

lemma listMax_mem (l : List ℤ) (hl : l ≠ []) : listMax l ∈ l := by
  cases l with
  | nil => exact absurd rfl hl
  | cons a t =>
    show t.foldl max a ∈ a :: t
    rcases foldl_max_cases t a with h | h
    · rw [h]; exact List.mem_cons_self a t
    · exact List.mem_cons_of_mem a h

lemma foldl_min_le {α : Type} [LinearOrder α] (l : List α) (b : α) :
    l.foldl min b ≤ b := by
  induction l generalizing b with
  | nil => exact le_refl b
  | cons a t ih => exact le_trans (ih (min b a)) (min_le_left b a)

lemma foldl_min_le_mem {α : Type} [LinearOrder α] (l : List α) (b x : α)
    (hx : x ∈ l) : l.foldl min b ≤ x := by
  induction l generalizing b with
  | nil => cases hx
  | cons a t ih =>
    rcases List.mem_cons.mp hx with h | h
    · subst h
      exact le_trans (foldl_min_le t (min b x)) (min_le_right b x)
    · exact ih (min b a) h

lemma foldl_min_cases {α : Type} [LinearOrder α] (l : List α) (b : α) :
    l.foldl min b = b ∨ l.foldl min b ∈ l := by
  induction l generalizing b with
  | nil => exact Or.inl rfl
  | cons a t ih =>
    rcases ih (min b a) with h | h
    · rcases min_choice b a with hm | hm
      · exact Or.inl (by rw [List.foldl_cons, h, hm])
      · exact Or.inr (by rw [List.foldl_cons, h, hm]; exact List.mem_cons_self a t)
    · exact Or.inr (List.mem_cons_of_mem a h)

lemma listMin_le (l : List ℤ) (x : ℤ) (hx : x ∈ l) : listMin l ≤ x := by
  cases l with
  | nil => cases hx
  | cons a t =>
    rcases List.mem_cons.mp hx with h | h
    · subst h; exact foldl_min_le t x
    · exact foldl_min_le_mem t a x h

lemma listMin_mem (l : List ℤ) (hl : l ≠ []) : listMin l ∈ l := by
  cases l with
  | nil => exact absurd rfl hl
  | cons a t =>
    show t.foldl min a ∈ a :: t
    rcases foldl_min_cases t a with h | h
    · rw [h]; exact List.mem_cons_self a t
    · exact List.mem_cons_of_mem a h

lemma le_listMaxN (l : List ℕ) (x : ℕ) (hx : x ∈ l) : x ≤ listMaxN l :=
  mem_le_foldl_max l 0 x hx

lemma pixel_map_map (h : ℤ → ℤ) (h0 : h 0 = 0) (f : Frame) (p : Pos) :
    pixel (f.map (List.map h)) p = h (pixel f p) := by
  simp only [pixel, List.getD_eq_getElem?_getD, List.getElem?_map]
  rcases hrow : f[p.1]? with _ | row
  · simp [hrow, h0]
  · simp only [hrow, Option.map_some', Option.getD_some, List.getElem?_map]
    rcases hv : row[p.2]? with _ | v
    · simp [hv, h0]
    · simp [hv]

lemma pixel_bounds (f : Frame) (p : Pos) (hp : pixel f p ≠ 0) :
    p.1 < f.length ∧ p.2 < (f.getD p.1 []).length := by
  constructor
  · by_contra hb
    push_neg at hb
    have : f.getD p.1 [] = [] := by
      rw [List.getD_eq_getElem?_getD, List.getElem?_eq_none hb]
      rfl
    exact hp (by unfold pixel; rw [this]; rfl)
  · by_contra hb
    push_neg at hb
    exact hp (by
      unfold pixel
      rw [List.getD_eq_getElem?_getD, List.getElem?_eq_none hb]
      rfl)

lemma pixel_mem_flatF (f : Frame) (p : Pos) (hp : pixel f p ≠ 0) :
    pixel f p ∈ flatF f := by
  obtain ⟨h1, h2⟩ := pixel_bounds f p hp
  have hrow : f.getD p.1 [] ∈ f := by
    rw [List.getD_eq_getElem?_getD, List.getElem?_eq_getElem h1]
    exact List.getElem_mem h1
  have hv : pixel f p ∈ f.getD p.1 [] := by
    unfold pixel
    rw [List.getD_eq_getElem?_getD (f.getD p.1 []), List.getElem?_eq_getElem h2]
    exact List.getElem_mem h2
  exact List.mem_flatten.mpr ⟨f.getD p.1 [], hrow, hv⟩

lemma mem_flatF (f : Frame) (v : ℤ) : v ∈ flatF f ↔ ∃ row ∈ f, v ∈ row :=
  List.mem_flatten

lemma flatF_map_map (h : ℤ → ℤ) (f : Frame) :
    flatF (f.map (List.map h)) = (flatF f).map h := by
  simp [flatF, List.map_flatten]

lemma getElem?_range_lt {n i : ℕ} (h : i < n) : (List.range n)[i]? = some i := by
  rw [List.getElem?_eq_getElem (by simpa using h)]
  simp

lemma pixel_gridOf (n : ℕ) (len : ℕ → ℕ) (g : ℕ → ℕ → ℤ) (p : Pos) :
    pixel (gridOf n len g) p =
      if p.1 < n ∧ p.2 < len p.1 then g p.1 p.2 else 0 := by
  simp only [pixel, gridOf, List.getD_eq_getElem?_getD, List.getElem?_map]
  by_cases h1 : p.1 < n
  · rw [getElem?_range_lt h1]
    simp only [Option.map_some', Option.getD_some, List.getElem?_map]
    by_cases h2 : p.2 < len p.1
    · rw [getElem?_range_lt h2]
      simp [h1, h2]
    · have hnone : (List.range (len p.1))[p.2]? = none :=
        List.getElem?_eq_none (by simpa using not_lt.mp h2)
      rw [hnone]
      simp [h2]
  · have hnone : (List.range n)[p.1]? = none :=
      List.getElem?_eq_none (by simpa using not_lt.mp h1)
    rw [hnone]
    simp [h1]

lemma mem_flatF_gridOf (n : ℕ) (len : ℕ → ℕ) (g : ℕ → ℕ → ℤ) (v : ℤ)
    (hv : v ∈ flatF (gridOf n len g)) :
    ∃ i j, i < n ∧ j < len i ∧ v = g i j := by
  rw [mem_flatF] at hv
  obtain ⟨row, hrow, hvrow⟩ := hv
  unfold gridOf at hrow
  rw [List.mem_map] at hrow
  obtain ⟨i, hi, hrow'⟩ := hrow
  rw [List.mem_range] at hi
  subst hrow'
  rw [List.mem_map] at hvrow
  obtain ⟨j, hj, hv'⟩ := hvrow
  rw [List.mem_range] at hj
  exact ⟨i, j, hi, hj, hv'.symm⟩

lemma denQ_ne_zero (z : ℤ) : denQ z ≠ 0 := by
  unfold denQ
  intro h
  have h2 : (307 : ℚ) * z = 333000 := by linear_combination (-100000 : ℚ) * h
  have h3 : (307 : ℤ) * z = 333000 := by exact_mod_cast h2
  omega

lemma distance_mm_ne_zero (z : ℤ) : distance_mm z ≠ 0 :=
  div_ne_zero (by norm_num) (denQ_ne_zero z)

lemma distance_mm_pos (z : ℤ) (h : 0 < denQ z) : 0 < distance_mm z :=
  div_pos (by norm_num) h

lemma distance_mm_neg (z : ℤ) (h : denQ z < 0) : distance_mm z < 0 :=
  div_neg_of_pos_of_neg (by norm_num) h

lemma rewrapV_gt_500 (v : ℤ) (hv : 0 ≤ v) : 500 < rewrapV v := by
  unfold rewrapV
  split <;> omega

lemma rewrapV_idem (v : ℤ) (hv : 0 ≤ v) : rewrapV (rewrapV v) = rewrapV v := by
  have h5 : ¬ rewrapV v ≤ 500 := not_le.mpr (rewrapV_gt_500 v hv)
  conv_lhs => rw [rewrapV]
  rw [if_neg h5]
  ring

lemma maskLe_eq (far : ℚ) (v : ℤ) :
    maskLe far v = if (v : ℚ) ≤ far then v else 0 := by
  unfold maskLe
  split <;> simp

lemma maskLe_zero (far : ℚ) : maskLe far 0 = 0 := by simp [maskLe]

lemma maskLe_ne_zero_iff (far : ℚ) (v : ℤ) :
    maskLe far v ≠ 0 ↔ v ≠ 0 ∧ (v : ℚ) ≤ far := by
  rw [maskLe_eq]
  split <;> simp_all

lemma pixel_genThreshold (d : Frame) (w : ℚ) (p : Pos) :
    pixel (genThreshold d w) p =
      maskLe (farthestRaw (closestOf d) w) (pixel (rewrap d) p) := by
  unfold genThreshold
  exact pixel_map_map _ (maskLe_zero _) (rewrap d) p

lemma pixel_genThreshold_ne_zero (d : Frame) (w : ℚ) (p : Pos) :
    pixel (genThreshold d w) p ≠ 0 ↔
      pixel (rewrap d) p ≠ 0 ∧
        ((pixel (rewrap d) p : ℚ) ≤ farthestRaw (closestOf d) w) := by
  rw [pixel_genThreshold, maskLe_ne_zero_iff]

lemma getD_row_mem (f : Frame) (i : ℕ) (h : i < f.length) : f.getD i [] ∈ f := by
  rw [List.getD_eq_getElem?_getD, List.getElem?_eq_getElem h]
  exact List.getElem_mem h

lemma subset_stepR (C S : Finset Pos) : S ⊆ stepR C S := Finset.subset_union_left

lemma stepR_subset (C S : Finset Pos) (hS : S ⊆ C) : stepR C S ⊆ C :=
  Finset.union_subset hS (Finset.filter_subset _ _)

lemma iter_stepR_subset (C S : Finset Pos) (hS : S ⊆ C) (n : ℕ) :
    (stepR C)^[n] S ⊆ C := by
  induction n with
  | zero => exact hS
  | succ k ih =>
    rw [Function.iterate_succ_apply']
    exact stepR_subset C _ ih

lemma iter_stepR_mono_succ (C S : Finset Pos) (n : ℕ) :
    (stepR C)^[n] S ⊆ (stepR C)^[n + 1] S := by
  rw [Function.iterate_succ_apply']
  exact subset_stepR C _

lemma subset_iter_stepR (C S : Finset Pos) (n : ℕ) : S ⊆ (stepR C)^[n] S := by
  induction n with
  | zero => exact subset_refl S
  | succ k ih => exact subset_trans ih (iter_stepR_mono_succ C S k)

lemma stepR_fixed_iter (C S : Finset Pos) (h : stepR C S = S) (n : ℕ) :
    (stepR C)^[n] S = S := by
  induction n with
  | zero => rfl
  | succ k ih => rw [Function.iterate_succ_apply', ih, h]

lemma iter_stepR_growth (C S : Finset Pos) (k : ℕ)
    (h : ∀ i < k, stepR C ((stepR C)^[i] S) ≠ (stepR C)^[i] S) :
    k ≤ ((stepR C)^[k] S).card := by
  induction k with
  | zero => exact Nat.zero_le _
  | succ m ih =>
    have hm : m ≤ ((stepR C)^[m] S).card :=
      ih (fun i hi => h i (Nat.lt_succ_of_lt hi))
    have hne : (stepR C)^[m] S ≠ (stepR C)^[m + 1] S := by
      rw [Function.iterate_succ_apply']
      exact fun he => h m (Nat.lt_succ_self m) he.symm
    have hss : (stepR C)^[m] S ⊂ (stepR C)^[m + 1] S :=
      Finset.ssubset_iff_subset_ne.mpr ⟨iter_stepR_mono_succ C S m, hne⟩
    have hcard := Finset.card_lt_card hss
    omega

lemma stepR_card_fixed (C S : Finset Pos) (hS : S ⊆ C) :
    stepR C ((stepR C)^[C.card] S) = (stepR C)^[C.card] S := by
  by_contra hfix
  have hstrict : ∀ i ≤ C.card, stepR C ((stepR C)^[i] S) ≠ (stepR C)^[i] S := by
    intro i hi heq
    apply hfix
    have h2 : (stepR C)^[C.card - i + i] S = (stepR C)^[i] S := by
      rw [Function.iterate_add_apply]
      exact stepR_fixed_iter C _ heq (C.card - i)
    rw [Nat.sub_add_cancel hi] at h2
    rw [h2]
    exact heq
  have hgrow : C.card + 1 ≤ ((stepR C)^[C.card + 1] S).card :=
    iter_stepR_growth C S (C.card + 1) (fun i hi => hstrict i (Nat.lt_succ_iff.mp hi))
  have hsub : (stepR C)^[C.card + 1] S ⊆ C := iter_stepR_subset C S hS (C.card + 1)
  have hle := Finset.card_le_card hsub
  omega

lemma reachF_fixed (C S0 : Finset Pos) :
    stepR C (reachF C S0) = reachF C S0 :=
  stepR_card_fixed C (S0 ∩ C) Finset.inter_subset_right

lemma reachF_subset (C S0 : Finset Pos) : reachF C S0 ⊆ C :=
  iter_stepR_subset C _ Finset.inter_subset_right _

lemma subset_reachF (C S0 : Finset Pos) : S0 ∩ C ⊆ reachF C S0 :=
  subset_iter_stepR C _ _

lemma reachF_closed (C S0 : Finset Pos) (a b : Pos) (ha : a ∈ reachF C S0)
    (hadj : adjacent a b) (hb : b ∈ C) : b ∈ reachF C S0 := by
  have hmem : b ∈ stepR C (reachF C S0) :=
    Finset.mem_union_right _ (Finset.mem_filter.mpr ⟨hb, a, ha, hadj⟩)
  rwa [reachF_fixed] at hmem

lemma reachF_sound (C S0 : Finset Pos) (q : Pos) (hq : q ∈ reachF C S0) :
    ∃ p ∈ S0 ∩ C, Relation.ReflTransGen
      (fun a b => adjacent a b ∧ a ∈ C ∧ b ∈ C) p q := by
  have key : ∀ n (x : Pos), x ∈ (stepR C)^[n] (S0 ∩ C) →
      ∃ p ∈ S0 ∩ C, Relation.ReflTransGen
        (fun a b => adjacent a b ∧ a ∈ C ∧ b ∈ C) p x := by
    intro n
    induction n with
    | zero => exact fun x hx => ⟨x, hx, Relation.ReflTransGen.refl⟩
    | succ k ih =>
      intro x hx
      rw [Function.iterate_succ_apply'] at hx
      rcases Finset.mem_union.mp hx with hx | hx
      · exact ih x hx
      · rw [Finset.mem_filter] at hx
        obtain ⟨hxC, a, ha, hadj⟩ := hx
        obtain ⟨p, hp, hrtg⟩ := ih a ha
        have haC : a ∈ C := iter_stepR_subset C _ Finset.inter_subset_right k ha
        exact ⟨p, hp, hrtg.tail ⟨hadj, haC, hxC⟩⟩
  exact key C.card q hq

lemma reachF_complete (C S0 : Finset Pos) (p q : Pos) (hp : p ∈ S0 ∩ C)
    (hrtg : Relation.ReflTransGen (fun a b => adjacent a b ∧ a ∈ C ∧ b ∈ C) p q) :
    q ∈ reachF C S0 := by
  induction hrtg with
  | refl => exact subset_reachF C S0 hp
  | tail h1 h2 ih => exact reachF_closed C S0 _ _ ih h2.1 h2.2.2

lemma mem_cells (f : Frame) (p : Pos) : p ∈ cells f ↔ pixel f p ≠ 0 := by
  unfold cells
  rw [Finset.mem_filter]
  constructor
  · exact fun h => h.2
  · intro hp
    refine ⟨?_, hp⟩
    rw [Finset.mem_product]
    obtain ⟨h1, h2⟩ := pixel_bounds f p hp
    refine ⟨Finset.mem_range.mpr h1, Finset.mem_range.mpr ?_⟩
    have hrow : (f.getD p.1 []).length ∈ f.map List.length :=
      List.mem_map_of_mem List.length (getD_row_mem f p.1 h1)
    exact lt_of_lt_of_le h2 (le_listMaxN _ _ hrow)

lemma mem_reach_iff (f : Frame) (p q : Pos) : q ∈ reach f p ↔ Conn f p q := by
  unfold reach Conn
  constructor
  · intro hq
    obtain ⟨p', hp', hrtg⟩ := reachF_sound (cells f) {p} q hq
    rw [Finset.mem_inter, Finset.mem_singleton] at hp'
    obtain ⟨hpeq, hpC⟩ := hp'
    subst hpeq
    refine ⟨(mem_cells f p').mp hpC, (mem_cells f q).mp (reachF_subset _ _ hq), ?_⟩
    exact hrtg.mono (fun a b hab =>
      ⟨hab.1, (mem_cells f a).mp hab.2.1, (mem_cells f b).mp hab.2.2⟩)
  · rintro ⟨hp, hq, hrtg⟩
    refine reachF_complete (cells f) {p} p q ?_ ?_
    · rw [Finset.mem_inter, Finset.mem_singleton]
      exact ⟨rfl, (mem_cells f p).mpr hp⟩
    · exact hrtg.mono (fun a b hab =>
        ⟨hab.1, (mem_cells f a).mpr hab.2.1, (mem_cells f b).mpr hab.2.2⟩)

lemma mem_reach_ne_zero (f : Frame) (p q : Pos) (h : q ∈ reach f p) :
    pixel f q ≠ 0 :=
  (mem_cells f q).mp (reachF_subset _ _ h)

lemma mem_wallRaws (v depth z : ℤ) :
    z ∈ wallRaws v depth ↔ v + 1 ≤ z ∧ z < depth := by
  unfold wallRaws
  simp only [List.mem_map, List.mem_range]
  constructor
  · rintro ⟨k, hk, rfl⟩
    omega
  · rintro ⟨h1, h2⟩
    exact ⟨(z - v - 1).toNat, by omega, by omega⟩

lemma mem_mesh_points (dims : ℕ × ℕ) (scale : ℚ) (f : Frame) (t : ℚ × ℚ × ℚ) :
    t ∈ mesh_points dims scale f ↔
      ∃ i j, i < dims.1 ∧ j < dims.2 ∧ pixel f (i, j) ≠ 0 ∧
        t = ((to_world dims scale ((i : ℤ), (j : ℤ))).1,
             (to_world dims scale ((i : ℤ), (j : ℤ))).2,
             distance_mm (pixel f (i, j))) := by
  unfold mesh_points
  simp only [List.mem_flatMap, List.mem_range]
  constructor
  · rintro ⟨i, hi, j, hj, ht⟩
    by_cases hp : pixel f (i, j) = 0
    · simp [hp] at ht
    · simp only [hp, ne_eq, not_false_eq_true, if_true, if_pos,
        distance_mm_ne_zero, List.mem_singleton] at ht
      exact ⟨i, j, hi, hj, hp, ht⟩
  · rintro ⟨i, j, hi, hj, hp, rfl⟩
    refine ⟨i, hi, j, hj, ?_⟩
    simp [hp, distance_mm_ne_zero]

lemma mem_outline_points (dims : ℕ × ℕ) (scale : ℚ) (f : Frame) (depth : ℤ)
    (lh : Bool) (t : ℚ × ℚ × ℚ) :
    t ∈ outline_points dims scale f depth lh ↔
      ∃ i j z, i < dims.1 ∧ j < dims.2 ∧ (i, j) ∈ boundaryM (theMask f lh) ∧
        pixel f (i, j) ≠ 0 ∧ pixel f (i, j) + 1 ≤ z ∧ z < depth ∧
        t = ((to_world dims scale ((i : ℤ), (j : ℤ))).1,
             (to_world dims scale ((i : ℤ), (j : ℤ))).2, distance_mm z) := by
  unfold outline_points
  simp only [List.mem_flatMap, List.mem_range]
  constructor
  · rintro ⟨i, hi, j, hj, ht⟩
    by_cases hb : (i, j) ∈ boundaryM (theMask f lh)
    · by_cases hp : pixel f (i, j) = 0
      · simp [hb, hp] at ht
      · simp only [hb, if_true, hp, ne_eq, not_false_eq_true, if_pos,
          List.mem_map] at ht
        obtain ⟨z, hz, rfl⟩ := ht
        rw [mem_wallRaws] at hz
        exact ⟨i, j, z, hi, hj, hb, hp, hz.1, hz.2, rfl⟩
    · simp [hb] at ht
  · rintro ⟨i, j, z, hi, hj, hb, hp, hz1, hz2, rfl⟩
    refine ⟨i, hi, j, hj, ?_⟩
    simp only [hb, if_true, hp, ne_eq, not_false_eq_true, if_pos, List.mem_map]
    exact ⟨z, (mem_wallRaws _ _ _).mpr ⟨hz1, hz2⟩, rfl⟩

lemma pixel_backFrame (dims : ℕ × ℕ) (m : Finset Pos) (depth : ℤ) (p : Pos) :
    pixel (backFrame dims m depth) p =
      if p.1 < dims.1 ∧ p.2 < dims.2 then
        (if (p.1, p.2) ∈ m then depth else 0)
      else 0 := by
  unfold backFrame
  rw [pixel_gridOf]

lemma mem_back_points (dims : ℕ × ℕ) (scale : ℚ) (f : Frame) (depth : ℤ)
    (lh : Bool) (t : ℚ × ℚ × ℚ) :
    t ∈ back_points dims scale f depth lh ↔
      ∃ i j, i < dims.1 ∧ j < dims.2 ∧ (i, j) ∈ theMask f lh ∧ depth ≠ 0 ∧
        t = ((to_world dims scale ((i : ℤ), (j : ℤ))).1,
             (to_world dims scale ((i : ℤ), (j : ℤ))).2, distance_mm depth) := by
  unfold back_points
  rw [mem_mesh_points]
  constructor
  · rintro ⟨i, j, hi, hj, hp, ht⟩
    have hpix : pixel (backFrame dims (theMask f lh) depth) (i, j) =
        if (i, j) ∈ theMask f lh then depth else 0 := by
      rw [pixel_backFrame]
      exact if_pos ⟨hi, hj⟩
    by_cases hm : (i, j) ∈ theMask f lh
    · rw [hpix, if_pos hm] at hp ht
      exact ⟨i, j, hi, hj, hm, hp, ht⟩
    · rw [hpix, if_neg hm] at hp
      exact absurd rfl hp
  · rintro ⟨i, j, hi, hj, hm, hd, ht⟩
    have hpix : pixel (backFrame dims (theMask f lh) depth) (i, j) =
        if (i, j) ∈ theMask f lh then depth else 0 := by
      rw [pixel_backFrame]
      exact if_pos ⟨hi, hj⟩
    refine ⟨i, j, hi, hj, ?_, ?_⟩
    · rw [hpix, if_pos hm]
      exact hd
    · rw [hpix, if_pos hm]
      exact ht

lemma save_eq_ok (st : PlyState) (a : Frame) (lh : Bool) (r : SaveResult)
    (h : save st a lh = .ok r) :
    r = { state := ⟨saveZ a, saveScale a, saveDims a⟩,
          header_count := (savePts a lh).length,
          written := write_points (savePts a lh) (saveZ a) (saveCenter a),
          size_mm := saveSize a } := by
  unfold save at h
  split at h
  · exact absurd h (by simp)
  · split at h
    · exact absurd h (by simp)
    · exact (Except.ok.inj h).symm

lemma pixel_maskComponent (f : Frame) (p q : Pos) :
    pixel (maskComponent f p) q =
      pixel f q * (if q ∈ reach f p then 1 else 0) := by
  obtain ⟨i, j⟩ := q
  unfold maskComponent
  rw [pixel_gridOf]
  by_cases h1 : i < f.length ∧ j < (f.getD i []).length
  · rw [if_pos h1]
  · rw [if_neg h1]
    have hp : pixel f (i, j) = 0 := by
      by_contra hp
      exact h1 (pixel_bounds f (i, j) hp)
    rw [hp, zero_mul]

lemma goodFrame_pixel (f : Frame) (h : goodFrame f) (p : Pos)
    (hp : pixel f p ≠ 0) : 500 < pixel f p :=
  h _ (pixel_mem_flatF f p hp) hp

lemma flatF_rewrap (d : Frame) : flatF (rewrap d) = (flatF d).map rewrapV := by
  unfold rewrap
  exact flatF_map_map rewrapV d

lemma goodFrame_genThreshold (d : Frame) (hd : nonnegF d) (w : ℚ) :
    goodFrame (genThreshold d w) := by
  intro v hv hv0
  unfold genThreshold at hv
  rw [flatF_map_map, List.mem_map] at hv
  obtain ⟨u, hu, rfl⟩ := hv
  rw [flatF_rewrap, List.mem_map] at hu
  obtain ⟨x, hx, rfl⟩ := hu
  have h5 : 500 < rewrapV x := rewrapV_gt_500 x (hd x hx)
  rw [maskLe_eq] at hv0 ⊢
  by_cases hc : ((rewrapV x : ℚ) ≤ farthestRaw (closestOf d) w)
  · rw [if_pos hc]
    exact h5
  · rw [if_neg hc] at hv0
    exact absurd rfl hv0

lemma goodFrame_maskComponent (f : Frame) (p : Pos) (h : goodFrame f) :
    goodFrame (maskComponent f p) := by
  intro v hv hv0
  have hv' : v ∈ flatF (gridOf f.length (fun i => (f.getD i []).length)
      (fun i j => pixel f (i, j) * (if (i, j) ∈ reach f p then 1 else 0))) := hv
  obtain ⟨i, j, hi, hj, rfl⟩ := mem_flatF_gridOf _ _ _ v hv'
  by_cases hr : (i, j) ∈ reach f p
  · rw [if_pos hr, mul_one] at hv0 ⊢
    exact goodFrame_pixel f h (i, j) hv0
  · rw [if_neg hr, mul_zero] at hv0
    exact absurd rfl hv0

lemma nbhdVals_mem (s : Frame) (w i j : ℕ) (v : ℤ) (hv : v ∈ nbhdVals s w i j) :
    v = 0 ∨ v ∈ flatF s := by
  unfold nbhdVals at hv
  rw [List.mem_flatMap] at hv
  obtain ⟨a, ha, hv⟩ := hv
  rw [List.mem_map] at hv
  obtain ⟨b, hb, rfl⟩ := hv
  by_cases hp : pixel s (a, b) = 0
  · exact Or.inl hp
  · exact Or.inr (pixel_mem_flatF s (a, b) hp)

lemma listMax_zero_or_mem (l : List ℤ) : listMax l = 0 ∨ listMax l ∈ l := by
  cases l with
  | nil => exact Or.inl rfl
  | cons a t => exact Or.inr (listMax_mem _ (by simp))

lemma listMin_zero_or_mem (l : List ℤ) : listMin l = 0 ∨ listMin l ∈ l := by
  cases l with
  | nil => exact Or.inl rfl
  | cons a t => exact Or.inr (listMin_mem _ (by simp))

lemma flatF_dilateF_mem (s : Frame) (w : ℕ) (v : ℤ)
    (hv : v ∈ flatF (dilateF s w)) : v = 0 ∨ v ∈ flatF s := by
  unfold dilateF at hv
  obtain ⟨i, j, hi, hj, rfl⟩ := mem_flatF_gridOf _ _ _ v hv
  rcases listMax_zero_or_mem (nbhdVals s w i j) with h | h
  · exact Or.inl h
  · exact nbhdVals_mem s w i j _ h

lemma flatF_erodeF_mem (s : Frame) (w : ℕ) (v : ℤ)
    (hv : v ∈ flatF (erodeF s w)) : v = 0 ∨ v ∈ flatF s := by
  unfold erodeF at hv
  obtain ⟨i, j, hi, hj, rfl⟩ := mem_flatF_gridOf _ _ _ v hv
  rcases listMin_zero_or_mem (nbhdVals s w i j) with h | h
  · exact Or.inl h
  · exact nbhdVals_mem s w i j _ h

lemma flatF_greyClosing_mem (s : Frame) (w : ℕ) (v : ℤ)
    (hv : v ∈ flatF (greyClosing s w)) : v = 0 ∨ v ∈ flatF s := by
  unfold greyClosing at hv
  rcases flatF_erodeF_mem (dilateF s w) w v hv with h | h
  · exact Or.inl h
  · exact flatF_dilateF_mem s w v h

lemma goodFrame_greyClosing (s : Frame) (w : ℕ) (h : goodFrame s) :
    goodFrame (greyClosing s w) := by
  intro v hv hv0
  rcases flatF_greyClosing_mem s w v hv with h2 | h2
  · exact absurd h2 hv0
  · exact h v h2 hv0

lemma rewrap_idem (d : Frame) (hd : nonnegF d) : rewrap (rewrap d) = rewrap d := by
  unfold rewrap
  rw [List.map_map]
  apply List.map_congr_left
  intro row hrow
  simp only [Function.comp_apply, List.map_map]
  apply List.map_congr_left
  intro x hx
  exact rewrapV_idem x (hd x ((mem_flatF d x).mpr ⟨row, hrow, hx⟩))

lemma closestOf_rewrap (d : Frame) (hd : nonnegF d) :
    closestOf (rewrap d) = closestOf d := by
  unfold closestOf
  rw [rewrap_idem d hd]

lemma genThreshold_rewrap (d : Frame) (hd : nonnegF d) (w : ℚ) :
    genThreshold (rewrap d) w = genThreshold d w := by
  unfold genThreshold
  rw [rewrap_idem d hd, closestOf_rewrap d hd]

lemma get_array_good (st : FC) (hg : goodFC st) (f : Frame)
    (h : st.get_array = some f) : goodFrame f := by
  rcases hseg : st.segmented with _ | s
  · simp only [FC.get_array, hseg] at h
    have hth := hg.1
    rw [h] at hth
    exact hth
  · simp only [FC.get_array, hseg] at h
    have hsg := hg.2
    rw [hseg] at hsg
    rwa [Option.some.inj h] at hsg

lemma farthestRaw_eq_distInv (c : ℤ) (w : ℚ) :
    farthestRaw c w = distInv (distance_mm c + 10 * w) := by
  unfold farthestRaw distInv distance_mm
  have h10 : (1000 : ℚ) / denQ c = 10 * (100 / denQ c) := by
    rw [← mul_div_assoc]
    norm_num
  rw [h10]
  have h2 : 10 * (100 / denQ c) + 10 * w = 10 * (100 / denQ c + w) := by ring
  rw [h2]
  have h3 : (1000 : ℚ) / (10 * (100 / denQ c + w)) = 100 / (100 / denQ c + w) := by
    rw [← div_div]
    norm_num
  rw [h3]

/-- C3 (counterexample): the claim's cutoff — `distance_mm(closest) +
depthWindow`, inverse-mapped through the calibration model — does not
reproduce the code's thresholding.  On the frame `[[600, 660]]` with
window 10 the code keeps pixel 660 (its cutoff raw is about 662.7) while
the claim's pipeline zeroes it (cutoff raw about 607.1). -/
theorem threshold_cutoff_unit_counterexample :
    genThreshold [[600, 660]] 10 ≠ specThreshold [[600, 660]] 10 := by
  have h1 : genThreshold [[600, 660]] 10 = [[600, 660]] := by
    norm_num [genThreshold, maskLe, farthestRaw, denQ, closestOf, amin,
      rewrap, rewrapV, flatF, listMin]
  have h2 : specThreshold [[600, 660]] 10 = [[600, 0]] := by
    norm_num [specThreshold, maskLe, distInv, distance_mm, denQ, closestOf,
      amin, rewrap, rewrapV, flatF, listMin]
  rw [h1, h2]
  decide

/-- C3 (amended): thresholding rewraps raws at or below 500 by +2047,
takes the frame minimum as `closest`, and zeroes exactly the pixels whose
rewrapped raw exceeds the cutoff; but the cutoff distance is computed in
the code's unit `100/(o + s·raw)` — one tenth of `distance_mm` — so the
code run with window `w` equals the spec's pipeline run with window
`10·w`: the effective cutoff distance is `distance_mm(closest) + 10·depthWindow`. -/
theorem threshold_equals_spec_tenfold (d : Frame) (w : ℚ) :
    genThreshold d w = specThreshold d (10 * w) := by
  unfold genThreshold specThreshold
  rw [farthestRaw_eq_distInv]

/-- C4 (counterexample): `generate_threshold` cannot fail.  On the
entirely-zero frame `[[0]]` with window 10 it returns the threshold frame
`[[2047]]` (the zero pixel is rewrapped to 2047 and kept), not an
`EmptyFrame` error — no such error exists in the code, and `numpy.amin`
of a nonempty all-zero frame is well defined after the rewrap. -/
theorem generate_threshold_total_counterexample :
    genThreshold [[0]] 10 = [[2047]] := by
  norm_num [genThreshold, maskLe, farthestRaw, denQ, closestOf, amin,
    rewrap, rewrapV, flatF, listMin]

/-- C4 (amended): thresholding an entirely-zero (nonempty) frame does not
fail: every pixel is rewrapped to 2047, `closest = 2047`, and with window
0 the cutoff inverts back to exactly 2047, so the produced threshold frame
is all-2047 (every pixel kept). -/
theorem generate_threshold_all_zero (d : Frame) (hne : flatF d ≠ [])
    (hz : ∀ v ∈ flatF d, v = 0) :
    genThreshold d 0 = d.map (List.map (fun _ => (2047 : ℤ))) := by
  have hrv : rewrapV 0 = 2047 := by decide
  have hcl : closestOf d = 2047 := by
    unfold closestOf amin
    rw [flatF_rewrap]
    have hall : ∀ u ∈ (flatF d).map rewrapV, u = 2047 := by
      intro u hu
      rw [List.mem_map] at hu
      obtain ⟨x, hx, rfl⟩ := hu
      rw [hz x hx, hrv]
    have hne2 : (flatF d).map rewrapV ≠ [] := by
      simpa using hne
    exact hall _ (listMin_mem _ hne2)
  have hfar : farthestRaw 2047 0 = 2047 := by
    norm_num [farthestRaw, denQ]
  unfold genThreshold
  rw [hcl, hfar]
  unfold rewrap
  rw [List.map_map]
  apply List.map_congr_left
  intro row hrow
  simp only [Function.comp_apply, List.map_map]
  apply List.map_congr_left
  intro x hx
  have hx0 : x = 0 := hz x ((mem_flatF d x).mpr ⟨row, hrow, hx⟩)
  subst hx0
  simp only [Function.comp_apply, hrv]
  norm_num [maskLe]

/-- C5 (counterexample): for raw 2047 the calibration denominator is
negative; the code performs no validation and `mesh_points` emits a point
whose z is the negative distance `distance_mm 2047` instead of failing
with `InvalidCalibrationInput` (no such error exists in the code). -/
theorem distance_mm_negative_emission :
    mesh_points (1, 1) 1 [[2047]] =
      [((0 : ℚ), (0 : ℚ), distance_mm 2047)] ∧ distance_mm 2047 < 0 := by
  constructor
  · have hp : pixel [[2047]] (0, 0) = 2047 := by decide
    simp [mesh_points, List.range_succ, pixel, to_world,
      distance_mm_ne_zero]
  · norm_num [distance_mm, denQ]

/-- C5 (amended): `distance_mm` is the total pure function
`1000/(o + s·raw)`: the denominator is never zero at an integer raw, the
result is positive exactly when the denominator is positive, and for a
negative denominator the code divides anyway and returns a negative
distance (there is no `InvalidCalibrationInput` check to propagate). -/
theorem distance_mm_no_validation (raw : ℤ) :
    denQ raw ≠ 0 ∧ distance_mm raw = 1000 / denQ raw ∧
    (0 < denQ raw → 0 < distance_mm raw) ∧
    (denQ raw < 0 → distance_mm raw < 0) :=
  ⟨denQ_ne_zero raw, rfl, distance_mm_pos raw, distance_mm_neg raw⟩

/-- C5 (witness): the theorem applied at raw 600 (positive denominator)
and raw 2047 (negative denominator). -/
theorem distance_mm_no_validation_witness :
    0 < distance_mm 600 ∧ distance_mm 2047 < 0 :=
  ⟨(distance_mm_no_validation 600).2.2.1 (by norm_num [denQ]),
   (distance_mm_no_validation 2047).2.2.2 (by norm_num [denQ])⟩

/-- C7 (counterexample): threshold monotonicity in the depth window fails.
On the frame `[[500]]` (rewrapped to 2547, past the calibration
singularity) the single pixel is kept at window 0 but zeroed at the larger
window 30 (both windows in `[0, 2047]`). -/
theorem threshold_monotonicity_counterexample :
    (0 : ℚ) ≤ 30 ∧ (30 : ℚ) ≤ 2047 ∧
    pixel (genThreshold [[500]] 0) (0, 0) ≠ 0 ∧
    pixel (genThreshold [[500]] 30) (0, 0) = 0 := by
  refine ⟨by norm_num, by norm_num, ?_, ?_⟩
  · have h : genThreshold [[500]] 0 = [[2547]] := by
      norm_num [genThreshold, maskLe, farthestRaw, denQ, closestOf, amin,
        rewrap, rewrapV, flatF, listMin]
    rw [h]
    decide
  · have h : genThreshold [[500]] 30 = [[0]] := by
      norm_num [genThreshold, maskLe, farthestRaw, denQ, closestOf, amin,
        rewrap, rewrapV, flatF, listMin]
    rw [h]
    decide

/-- C7 (amended): for a fixed stored frame, the thresholded pixel set is
monotonically non-decreasing in the depth window provided the calibration
denominator at the rewrapped minimum is positive (`o + s·closest > 0`,
i.e. the closest reading is on the near side of the calibration
singularity); the counterexample shows the proviso is necessary. -/
theorem threshold_monotone_pos_denominator (d : Frame) (w1 w2 : ℚ)
    (hw0 : 0 ≤ w1) (hw : w1 ≤ w2) (hden : 0 < denQ (closestOf d)) :
    ∀ p : Pos, pixel (genThreshold d w1) p ≠ 0 →
      pixel (genThreshold d w2) p ≠ 0 := by
  intro p hp
  rw [pixel_genThreshold_ne_zero] at hp ⊢
  obtain ⟨h0, hle⟩ := hp
  refine ⟨h0, le_trans hle ?_⟩
  unfold farthestRaw
  have hcpos : 0 < (100 : ℚ) / denQ (closestOf d) := div_pos (by norm_num) hden
  have h1 : 0 < 100 / denQ (closestOf d) + w1 := by linarith
  have hdiv : 100 / (100 / denQ (closestOf d) + w2) ≤
      100 / (100 / denQ (closestOf d) + w1) := by
    gcongr <;> linarith
  have hneg : (-(307/100000) : ℚ) < 0 := by norm_num
  rw [div_le_div_right_of_neg hneg]
  linarith

/-- C7 (witness): the amended monotonicity applied to the frame `[[600]]`
with windows 1 and 2 at pixel (0, 0). -/
theorem threshold_monotone_pos_denominator_witness :
    pixel (genThreshold [[600]] 2) (0, 0) ≠ 0 := by
  have h1 : pixel (genThreshold [[600]] 1) (0, 0) ≠ 0 := by
    have he : genThreshold [[600]] 1 = [[600]] := by
      norm_num [genThreshold, maskLe, farthestRaw, denQ, closestOf, amin,
        rewrap, rewrapV, flatF, listMin]
    rw [he]
    decide
  exact threshold_monotone_pos_denominator [[600]] 1 2 (by norm_num)
    (by norm_num)
    (by norm_num [closestOf, amin, flatF, rewrap, rewrapV, denQ, listMin])
    (0, 0) h1

/-- C9: the hole-filling step of the cycle is an identity when the window
count is zero (window counts are clamped nonnegative by the driving loop,
so `windowSize ≤ 0` means zero, and the `if hole_filling:` guard skips the
call), and `hole_fill` leaves the state unchanged when there is no active
segmented frame. -/
theorem hole_fill_noop_cases (st : FC) (w : ℕ) :
    (w ≤ 0 → holeFillCycle w st = st) ∧
    (st.segmented = none → holeFillCycle w st = st ∧ st.hole_fill w = st) := by
  constructor
  · intro hw
    have hw0 : w = 0 := Nat.le_zero.mp hw
    subst hw0
    simp [holeFillCycle]
  · intro hseg
    have hhf : st.hole_fill w = st := by
      unfold FC.hole_fill
      rw [hseg]
    refine ⟨?_, hhf⟩
    unfold holeFillCycle
    split
    · exact hhf
    · rfl

/-- C9 (witness): the no-op cases at a concrete session state. -/
theorem hole_fill_noop_cases_witness :
    holeFillCycle 0 ⟨[[1]], none, none, none⟩ = ⟨[[1]], none, none, none⟩ ∧
    FC.hole_fill ⟨[[1]], none, none, none⟩ 3 = ⟨[[1]], none, none, none⟩ :=
  ⟨(hole_fill_noop_cases ⟨[[1]], none, none, none⟩ 0).1 (le_refl 0),
   ((hole_fill_noop_cases ⟨[[1]], none, none, none⟩ 3).2 rfl).2⟩

/-- C4 (witness): the amended theorem applied to the all-zero frame `[[0]]`. -/
theorem generate_threshold_all_zero_witness :
    genThreshold [[0]] 0 = [[0]].map (List.map (fun _ => (2047 : ℤ))) :=
  generate_threshold_all_zero [[0]] (by decide) (by decide)

lemma goodOpt_getD (o : Option Frame) (h : goodOpt o) : goodFrame (o.getD []) := by
  cases o with
  | none =>
    intro v hv
    simp [flatF] at hv
  | some t => exact h

/-- C6: with a fresh labeling of the threshold frame, selecting a pixel
whose label is nonzero and extracting produces a segmented frame whose
nonzero pixels are exactly the 4-connected component of the selected
pixel, carrying the threshold frame's values there; selecting a pixel
with label 0 clears the selection and the segment so that `get_array`
falls back to the full threshold frame, and if a previously selected
pixel's label has vanished, `segment` clears the segmented frame and
`get_array` again returns the full threshold frame. -/
theorem segment_extracts_component (st : FC) (f : Frame) (p : Pos)
    (hth : st.threshold = some f) :
    (pixel f p ≠ 0 →
      ∃ g, ((st.select_segment p).segment).segmented = some g ∧
        (∀ q : Pos, pixel g q ≠ 0 ↔ Conn f p q) ∧
        (∀ q : Pos, Conn f p q → pixel g q = pixel f q)) ∧
    (pixel f p = 0 →
      (st.select_segment p).selected = none ∧
      (st.select_segment p).segmented = none ∧
      (st.select_segment p).get_array = st.threshold) ∧
    (st.selected = some p → pixel f p = 0 →
      st.segment.segmented = none ∧ st.segment.get_array = st.threshold) := by
  refine ⟨?_, ?_, ?_⟩
  · intro hp
    have hsel : st.select_segment p = { st with selected := some p } := by
      unfold FC.select_segment
      rw [hth]
      simp only [Option.getD_some]
      rw [if_pos hp]
    have hseg : ({ st with selected := some p } : FC).segment =
        { st with selected := some p, segmented := some (maskComponent f p) } := by
      simp only [FC.segment, hth, Option.getD_some]
      rw [if_pos hp]
    rw [hsel, hseg]
    refine ⟨maskComponent f p, rfl, ?_, ?_⟩
    · intro q
      rw [pixel_maskComponent]
      constructor
      · intro hne
        by_cases hr : q ∈ reach f p
        · exact (mem_reach_iff f p q).mp hr
        · rw [if_neg hr, mul_zero] at hne
          exact absurd rfl hne
      · intro hc
        rw [if_pos ((mem_reach_iff f p q).mpr hc), mul_one]
        exact hc.2.1
    · intro q hc
      rw [pixel_maskComponent, if_pos ((mem_reach_iff f p q).mpr hc), mul_one]
  · intro hp
    have hsel : st.select_segment p =
        { st with selected := none, segmented := none } := by
      unfold FC.select_segment
      rw [hth]
      simp only [Option.getD_some]
      rw [if_neg (fun h => h hp)]
    rw [hsel]
    exact ⟨rfl, rfl, rfl⟩
  · intro hselp hp
    have hseg : st.segment = { st with segmented := none } := by
      simp only [FC.segment, hselp, hth, Option.getD_some]
      rw [if_neg (fun h => h hp)]
    rw [hseg]
    exact ⟨rfl, rfl⟩

/-- C6 (witness): the theorem applied to the concrete threshold frame
`[[7, 0], [0, 9]]` and selected pixel `(0, 0)` with nonzero value. -/
theorem segment_extracts_component_witness :
    ∃ g, ((FC.select_segment ⟨[[5]], some [[7, 0], [0, 9]], none, none⟩
            (0, 0)).segment).segmented = some g ∧
      (∀ q : Pos, pixel g q ≠ 0 ↔ Conn [[7, 0], [0, 9]] (0, 0) q) ∧
      (∀ q : Pos, Conn [[7, 0], [0, 9]] (0, 0) q →
        pixel g q = pixel [[7, 0], [0, 9]] q) :=
  (segment_extracts_component ⟨[[5]], some [[7, 0], [0, 9]], none, none⟩
    [[7, 0], [0, 9]] (0, 0) rfl).1 (by decide)

lemma goodFC_generate_threshold (st : FC) (w : ℚ) (hd : nonnegF st.depth)
    (hg : goodFC st) : goodFC (st.generate_threshold w) :=
  ⟨goodFrame_genThreshold st.depth hd w, hg.2⟩

lemma goodFC_select_segment (st : FC) (p : Pos) (hg : goodFC st) :
    goodFC (st.select_segment p) := by
  simp only [FC.select_segment]
  split
  · exact ⟨hg.1, hg.2⟩
  · exact ⟨hg.1, trivial⟩

lemma goodFC_segment (st : FC) (hg : goodFC st) : goodFC st.segment := by
  rcases hsel : st.selected with _ | p
  · simp only [FC.segment, hsel]
    exact hg
  · simp only [FC.segment, hsel]
    split
    · exact ⟨hg.1, goodFrame_maskComponent _ p (goodOpt_getD st.threshold hg.1)⟩
    · exact ⟨hg.1, trivial⟩

lemma goodFC_hole_fill (st : FC) (w : ℕ) (hg : goodFC st) :
    goodFC (st.hole_fill w) := by
  rcases hseg : st.segmented with _ | s
  · simp only [FC.hole_fill, hseg]
    exact hg
  · simp only [FC.hole_fill, hseg]
    have hs := hg.2
    rw [hseg] at hs
    exact ⟨hg.1, goodFrame_greyClosing s w hs⟩

lemma goodFC_holeFillCycle (st : FC) (w : ℕ) (hg : goodFC st) :
    goodFC (holeFillCycle w st) := by
  unfold holeFillCycle
  split
  · exact goodFC_hole_fill st w hg
  · exact hg

/-- C10: once `generate_threshold` has run (on nonnegative sensor data and
a session whose frames already satisfy the invariant), every nonzero pixel
of the threshold frame — and hence of the active frame returned by
`get_array` — is strictly greater than 500; the invariant is preserved by
segmentation and by the hole-filling cycle step; and a repeated
`generate_threshold` rewraps nothing a second time: the stored depth is
unchanged and the threshold it produces equals the one computed from the
original capture. -/
theorem pipeline_rewrap_invariant (st : FC) (w w' : ℚ) (win : ℕ)
    (hd : nonnegF st.depth) (hg : goodFC st) :
    goodFC (st.generate_threshold w) ∧
    goodFC ((st.generate_threshold w).segment) ∧
    goodFC (holeFillCycle win ((st.generate_threshold w).segment)) ∧
    (∀ f, (st.generate_threshold w).get_array = some f → goodFrame f) ∧
    (∀ f, (holeFillCycle win ((st.generate_threshold w).segment)).get_array =
        some f → goodFrame f) ∧
    ((st.generate_threshold w).generate_threshold w').depth =
      (st.generate_threshold w).depth ∧
    ((st.generate_threshold w).generate_threshold w').threshold =
      some (genThreshold st.depth w') := by
  have h1 : goodFC (st.generate_threshold w) :=
    goodFC_generate_threshold st w hd hg
  have h2 : goodFC ((st.generate_threshold w).segment) := goodFC_segment _ h1
  have h3 : goodFC (holeFillCycle win ((st.generate_threshold w).segment)) :=
    goodFC_holeFillCycle _ win h2
  refine ⟨h1, h2, h3, fun f hf => get_array_good _ h1 f hf,
    fun f hf => get_array_good _ h3 f hf, ?_, ?_⟩
  · show rewrap (rewrap st.depth) = rewrap st.depth
    exact rewrap_idem st.depth hd
  · show some (genThreshold (rewrap st.depth) w') =
      some (genThreshold st.depth w')
    rw [genThreshold_rewrap st.depth hd w']

/-- C10 (witness): the invariant theorem applied to a concrete capture. -/
theorem pipeline_rewrap_invariant_witness :
    goodFC (FC.generate_threshold ⟨[[600]], none, none, none⟩ 1) ∧
    ((FC.generate_threshold ⟨[[600]], none, none, none⟩ 1).generate_threshold 2).depth =
      (FC.generate_threshold ⟨[[600]], none, none, none⟩ 1).depth :=
  ⟨(pipeline_rewrap_invariant ⟨[[600]], none, none, none⟩ 1 2 3
      (by decide) (by decide)).1,
   (pipeline_rewrap_invariant ⟨[[600]], none, none, none⟩ 1 2 3
      (by decide) (by decide)).2.2.2.2.2.1⟩

lemma mem_nonzeroIdx (a : Frame) (q : Pos) :
    q ∈ nonzeroIdx a ↔ q.1 < rowsF a ∧ q.2 < colsF a ∧ pixel a q ≠ 0 := by
  obtain ⟨i, j⟩ := q
  unfold nonzeroIdx
  simp only [List.mem_flatMap, List.mem_range]
  constructor
  · rintro ⟨i', hi', j', hj', hq⟩
    by_cases hp : pixel a (i', j') ≠ 0
    · rw [if_pos hp, List.mem_singleton] at hq
      obtain ⟨rfl, rfl⟩ := Prod.mk.injEq .. ▸ hq
      exact ⟨hi', hj', hp⟩
    · rw [if_neg hp] at hq
      cases hq
  · rintro ⟨h1, h2, h3⟩
    refine ⟨i, h1, j, h2, ?_⟩
    rw [if_pos h3]
    exact List.mem_singleton.mpr rfl

/-- C1 (counterexample): on the all-zero frame `[[0]]`, `save` fails with
the numpy empty-reduction `ValueError` raised by `a.min(0)` over the empty
`argwhere` result — the min over the empty nonzero-pixel set IS evaluated
— and not with the spec's `EmptyPointCloud` error, which no code path
produces. -/
theorem save_all_zero_counterexample :
    save ⟨0, 0, (0, 0)⟩ [[0]] true = .error .emptyReduction ∧
    PlyError.emptyReduction ≠ PlyError.emptyPointCloud := by
  constructor
  · have h2 : nonzeroIdx [[0]] = [] := by decide
    unfold save
    rw [if_neg (by decide), if_pos h2]
  · decide

/-- C1 (amended): on every frame whose pixels are all zero, `save` fails —
with the empty-reduction error of the bounding-box computation (`a.min(0)`
over the empty set of nonzero indices raises numpy's `ValueError`; for a
zero-size frame already `numpy.amax` raises) — and produces no output;
there is no `EmptyPointCloud` check before the bounding-box math. -/
theorem save_all_zero_fails_in_bbox (st : PlyState) (a : Frame) (lh : Bool)
    (hz : ∀ v ∈ flatF a, v = 0) :
    save st a lh = .error .emptyReduction := by
  unfold save
  by_cases hfl : flatF a = []
  · rw [if_pos hfl]
  · rw [if_neg hfl]
    have hidx : nonzeroIdx a = [] := by
      rw [List.eq_nil_iff_forall_not_mem]
      intro q hq
      have hp := ((mem_nonzeroIdx a q).mp hq).2.2
      exact hp (hz _ (pixel_mem_flatF a q hp))
    rw [if_pos hidx]

/-- C1 (witness): the amended theorem applied to the all-zero 1×2 frame. -/
theorem save_all_zero_fails_in_bbox_witness :
    save ⟨1, 2, (3, 4)⟩ [[0, 0]] false = .error .emptyReduction :=
  save_all_zero_fails_in_bbox ⟨1, 2, (3, 4)⟩ [[0, 0]] false (by decide)

/-- C2: in a successful save, serialization subtracts each point's
generated z from `zFar = distance_mm (amax a)` exactly once — the written
list is the pointwise image of the generated list under
`(x - cx, y - cy, zFar - z)`; every back-plane point is generated with
z equal to `zFar` itself (so its written z is exactly 0); every mesh point
is generated with z equal to the raw pixel's linear distance and every
outline point with the linear distance of its stepped raw (no subtraction
during generation); and the written z is antitone in the generated
distance, so the nearest point gets the largest written z. -/
theorem write_points_single_subtraction (st : PlyState) (a : Frame)
    (lh : Bool) (r : SaveResult) (h : save st a lh = .ok r) :
    r.written = (savePts a lh).map (fun t =>
      (t.1 - (saveCenter a).1, t.2.1 - (saveCenter a).2,
       distance_mm (amax a) - t.2.2)) ∧
    (∀ t ∈ back_points (saveDims a) (saveScale a) a (amax a) lh,
      t.2.2 = distance_mm (amax a)) ∧
    (∀ t ∈ back_points (saveDims a) (saveScale a) a (amax a) lh,
      distance_mm (amax a) - t.2.2 = 0) ∧
    (∀ t ∈ mesh_points (saveDims a) (saveScale a) a,
      ∃ q : Pos, pixel a q ≠ 0 ∧ t.2.2 = distance_mm (pixel a q)) ∧
    (∀ t ∈ outline_points (saveDims a) (saveScale a) a (amax a) lh,
      ∃ z : ℤ, z < amax a ∧ t.2.2 = distance_mm z) ∧
    (∀ t1 ∈ savePts a lh, ∀ t2 ∈ savePts a lh, t1.2.2 ≤ t2.2.2 →
      distance_mm (amax a) - t2.2.2 ≤ distance_mm (amax a) - t1.2.2) := by
  have hr := save_eq_ok st a lh r h
  subst hr
  refine ⟨rfl, ?_, ?_, ?_, ?_, ?_⟩
  · intro t ht
    rw [mem_back_points] at ht
    obtain ⟨i, j, _, _, _, _, rfl⟩ := ht
    rfl
  · intro t ht
    rw [mem_back_points] at ht
    obtain ⟨i, j, _, _, _, _, rfl⟩ := ht
    exact sub_self _
  · intro t ht
    rw [mem_mesh_points] at ht
    obtain ⟨i, j, _, _, hp, rfl⟩ := ht
    exact ⟨(i, j), hp, rfl⟩
  · intro t ht
    rw [mem_outline_points] at ht
    obtain ⟨i, j, z, _, _, _, _, _, hz, rfl⟩ := ht
    exact ⟨z, hz, rfl⟩
  · intro t1 _ t2 _ hle
    linarith

/-- C2 (witness): the theorem applied to a successful save of `[[600]]`,
at that save's single back-plane point. -/
theorem write_points_single_subtraction_witness :
    distance_mm (amax [[600]]) -
      ((to_world (saveDims [[600]]) (saveScale [[600]]) (0, 0)).1,
       (to_world (saveDims [[600]]) (saveScale [[600]]) (0, 0)).2,
       distance_mm (amax [[600]])).2.2 = 0 := by
  apply (write_points_single_subtraction ⟨0, 0, (0, 0)⟩ [[600]] true
    { state := ⟨saveZ [[600]], saveScale [[600]], saveDims [[600]]⟩,
      header_count := (savePts [[600]] true).length,
      written := write_points (savePts [[600]] true) (saveZ [[600]])
        (saveCenter [[600]]),
      size_mm := saveSize [[600]] }
    (by unfold save; rw [if_neg (by decide), if_neg (by decide)])).2.2.1
  rw [mem_back_points]
  exact ⟨0, 0, by decide, by decide, by decide, by decide, rfl⟩

/-- C8: one save call computes exactly one `zFar` and one scale — the
result does not depend on the writer state left by any previous call, the
assigned state holds `z_p = distance_mm (amax a)` and
`scale = (z_p + (-100)) * 0.0021`, every generated point's (x, y) is the
`to_world` projection of its pixel under that same single scale, and the
reported bounding-box size is computed with that same scale as well. -/
theorem save_scale_once_uniform (st : PlyState) (a : Frame) (lh : Bool)
    (r : SaveResult) :
    (∀ st1 st2 : PlyState, save st1 a lh = save st2 a lh) ∧
    (save st a lh = .ok r →
      r.state.z_p = distance_mm (amax a) ∧
      r.state.scale = (distance_mm (amax a) + (-100)) * (21 / 10000) ∧
      (∀ t ∈ savePts a lh, ∃ i j : ℤ,
        t.1 = ((i : ℚ) - ((rowsF a / 2 : ℕ) : ℚ)) * r.state.scale ∧
        t.2.1 = ((j : ℚ) - ((colsF a / 2 : ℕ) : ℚ)) * r.state.scale) ∧
      r.size_mm = ((to_world (saveDims a) r.state.scale (saveMaxP a)).1 -
          (to_world (saveDims a) r.state.scale (saveMinP a)).1,
        (to_world (saveDims a) r.state.scale (saveMaxP a)).2 -
          (to_world (saveDims a) r.state.scale (saveMinP a)).2)) := by
  constructor
  · intro st1 st2
    rfl
  · intro h
    have hr := save_eq_ok st a lh r h
    subst hr
    refine ⟨rfl, rfl, ?_, rfl⟩
    intro t ht
    unfold savePts at ht
    rcases List.mem_append.mp ht with ht | ht
    · rcases List.mem_append.mp ht with ht | ht
      · rw [mem_outline_points] at ht
        obtain ⟨i, j, z, _, _, _, _, _, _, rfl⟩ := ht
        exact ⟨(i : ℤ), (j : ℤ), rfl, rfl⟩
      · rw [mem_back_points] at ht
        obtain ⟨i, j, _, _, _, _, rfl⟩ := ht
        exact ⟨(i : ℤ), (j : ℤ), rfl, rfl⟩
    · rw [mem_mesh_points] at ht
      obtain ⟨i, j, _, _, _, rfl⟩ := ht
      exact ⟨(i : ℤ), (j : ℤ), rfl, rfl⟩

/-- C8 (witness): state-independence and the assigned `z_p` at a
successful concrete save of `[[700]]`. -/
theorem save_scale_once_uniform_witness :
    save ⟨5, 6, (7, 8)⟩ [[700]] true = save ⟨0, 0, (0, 0)⟩ [[700]] true ∧
    ({ state := ⟨saveZ [[700]], saveScale [[700]], saveDims [[700]]⟩,
       header_count := (savePts [[700]] true).length,
       written := write_points (savePts [[700]] true) (saveZ [[700]])
         (saveCenter [[700]]),
       size_mm := saveSize [[700]] } : SaveResult).state.z_p =
      distance_mm (amax [[700]]) :=
  ⟨(save_scale_once_uniform ⟨5, 6, (7, 8)⟩ [[700]] true
      { state := ⟨saveZ [[700]], saveScale [[700]], saveDims [[700]]⟩,
        header_count := (savePts [[700]] true).length,
        written := write_points (savePts [[700]] true) (saveZ [[700]])
          (saveCenter [[700]]),
        size_mm := saveSize [[700]] }).1 ⟨5, 6, (7, 8)⟩ ⟨0, 0, (0, 0)⟩,
   ((save_scale_once_uniform ⟨0, 0, (0, 0)⟩ [[700]] true
      { state := ⟨saveZ [[700]], saveScale [[700]], saveDims [[700]]⟩,
        header_count := (savePts [[700]] true).length,
        written := write_points (savePts [[700]] true) (saveZ [[700]])
          (saveCenter [[700]]),
        size_mm := saveSize [[700]] }).2
      (by unfold save; rw [if_neg (by decide), if_neg (by decide)])).1⟩
